import Mathlib

/-!
Verification development for the 7z-rs archive manager.

This file gives a shallow embedding of the parallel archive engine
(src/parallel.rs), the archive manager operations (src/app.rs) and the
data model (src/models.rs), and settles the frozen claims about them.

Modelling conventions:
 - Machine integers (u64, usize) are modelled as Nat; no overflow is
   reachable at the byte counts involved.
 - f32 progress arithmetic is modelled exactly over ℚ.  Rust float
   division by zero yields NaN and every comparison against NaN is
   false, while Lean's ℚ division by zero yields 0; since `processed /
   total` is NaN exactly when `total = 0` (a job whose readable files
   are all empty), the model carries an explicit `total ≠ 0` conjunct in
   the throttling test of `processFile`, which renders the NaN-poisoned
   comparison false exactly as in the source.  For `total ≠ 0` the ℚ
   values are the exact real values of the f32 expressions.
 - Filesystem files are `FsFile` records.  A file whose metadata read
   fails (`metaOk = false`) is skipped by both metadata passes of
   compress_files_parallel; a file whose content read fails
   (`readOk = false`) makes File::open/read_to_end return Err inside the
   worker loop.  Metadata length and content length are modelled as the
   same quantity (`content.length`), i.e. files do not change size
   between the metadata pass and the read.
 - The external `zip` crate is modelled by its interface contract: a
   written archive is the list of its entries; reading an entry yields
   the bytes that were written for it; `by_name` resolves a name to the
   most recently written entry with that name (IndexMap insert
   semantics); AES-encrypted entries make `by_index` / `by_name` return
   a password-required error, and `by_index_decrypt` checks the
   password.  The byte serialization of the finished container is an
   arbitrary parameter `zipFinish`.
 - rayon's `par_chunks(4).try_for_each` is modelled by processing the
   chunks sequentially; progress emissions are serialized in the source
   by the `processed_size` mutex (the MutexGuard is held across the
   send), so the sequential order is the emission order, and the set of
   written entries does not depend on chunk interleaving.
 - Thread panics (`unwrap`/`expect` on Err/None) are modelled by
   explicit `panicked` result constructors; lock poisoning is not
   modelled (all `lock()` calls succeed).
-/

namespace ZipApp

/-- Model of one filesystem input file: its path (as components, the last
one being the basename), its byte content, whether `std::fs::metadata`
succeeds, and whether opening/reading it succeeds. -/
structure FsFile where
  path : List String
  content : List Nat
  metaOk : Bool
  readOk : Bool
  deriving DecidableEq

/-- Compression methods used by the writer (src/parallel.rs:60). -/
inductive CompressionMethod
  | Deflated
  | Stored
  deriving DecidableEq

/-- Model of zip::write::FileOptions as configured per entry
(src/parallel.rs:59-62).  `aes_password = some p` would mean the entry is
AES-encrypted with password `p`; the source never sets it. -/
structure EntryOptions where
  compression_method : CompressionMethod
  compression_level : Option Int
  unix_permissions : Nat
  aes_password : Option String
  deriving DecidableEq

/-- One member of a zip archive: its name, the (logical, uncompressed)
bytes written for it, and the options it was written with. -/
structure ZipEntry where
  name : String
  data : List Nat
  options : EntryOptions
  deriving DecidableEq

/-- Model of CompressionStats (src/app.rs:41-47).  `start_time` is
modelled externally (elapsed times are a parameter of the run) and
`output_path` is constant for a job, so both are omitted from the
snapshot record. -/
structure CompressionStats where
  original_size : Nat
  compressed_size : Nat
  estimated_time : ℚ
  deriving DecidableEq

/-- Basename of a path, as in `path.file_name().unwrap_or_default()`
(src/parallel.rs:54-57): the last component, or "" for an empty path. -/
def fileBasename (p : List String) : String :=
  p.getLast?.getD ""

/-- The per-entry options built at src/parallel.rs:59-62: Deflated at
level 5 (COMPRESSION_LEVEL, src/parallel.rs:11), unix permissions 0o755,
and no encryption of any kind. -/
def compressionOptions : EntryOptions :=
  { compression_method := .Deflated
    compression_level := some 5
    unix_permissions := 0o755
    aes_password := none }

/-- The archive entry appended for one input file (src/parallel.rs:49-69):
named by the file's basename, carrying the whole file content. -/
def mkZipEntry (f : FsFile) : ZipEntry :=
  { name := fileBasename f.path, data := f.content, options := compressionOptions }

/-- Structurally recursive worker for `chunksOf`: `chunksOfAux n l i`
returns the first `i` elements of `l` together with the chunking of the
remaining elements into blocks of `n`. -/
def chunksOfAux {α : Type} (n : Nat) : List α → Nat → List α × List (List α)
  | [], _ => ([], [])
  | x :: xs, 0 =>
    let p := chunksOfAux n xs (n - 1)
    ([], (x :: p.1) :: p.2)
  | x :: xs, i + 1 =>
    let p := chunksOfAux n xs i
    (x :: p.1, p.2)

/-- Split a list into chunks of at most `n` elements, preserving order:
the model of `par_chunks(n)` (src/parallel.rs:40) and of reading a
stream in blocks of `n` bytes (src/app.rs:159-172). -/
def chunksOf {α : Type} (n : Nat) (l : List α) : List (List α) :=
  (chunksOfAux n l 0).2

/-- Mutable state threaded through the worker loop of
compress_files_parallel: the shared processed-bytes counter, the number
of cancellation checks performed so far, whether a per-file error has
occurred, the entries written so far, the snapshots sent so far, and the
current `stats.estimated_time` value. -/
structure LoopState where
  processed : Nat
  checks : Nat
  err : Bool
  entries : List ZipEntry
  emitted : List (ℚ × CompressionStats)
  est : ℚ
  deriving DecidableEq

/-- Initial worker state: zero processed bytes, no checks, no error, no
entries, no snapshots, estimated_time 0 (src/app.rs:98-104). -/
def initLoopState : LoopState :=
  { processed := 0, checks := 0, err := false, entries := [], emitted := [], est := 0 }

/-- Processing of one file inside the chunk loop (src/parallel.rs:49-89):
read the whole file (Err if `readOk` is false, which aborts the chunk),
append it as one entry under the zip mutex, add its size to the shared
counter, recompute the fraction, and - when the throttling condition
`progress - (progress * 100.0).floor() / 100.0 < 0.01` holds - update
`stats.estimated_time` to `elapsed / progress` (0 when `progress <= 0`)
and send a snapshot.  `E k` is the elapsed time observed at the k-th
emission of the job.  When `total = 0` the f32 `progress` is NaN
(0.0/0.0) and the source's throttling comparison is false (NaN compares
false against everything), so no snapshot is sent; over ℚ, where 0/0 is
0 instead of NaN, this is expressed by the explicit `total ≠ 0` conjunct
guarding the emission. -/
def processFile (E : Nat → ℚ) (total : Nat) (f : FsFile) (s : LoopState) : LoopState :=
  if f.readOk = false then { s with err := true }
  else
    let processed := s.processed + f.content.length
    let progress : ℚ := (processed : ℚ) / (total : ℚ)
    let entries := s.entries ++ [mkZipEntry f]
    if total ≠ 0 ∧ progress - ((⌊progress * 100⌋ : ℤ) : ℚ) / 100 < 1 / 100 then
      let elapsed := E s.emitted.length
      let est : ℚ := if 0 < progress then elapsed / progress else 0
      { s with processed := processed, entries := entries, est := est,
               emitted := s.emitted ++ [(progress, ⟨total, 0, est⟩)] }
    else
      { s with processed := processed, entries := entries }

/-- One chunk of the `try_for_each` closure (src/parallel.rs:40-91): for
each file, first consult the cancellation channel (src/parallel.rs:45;
`cancel k` is the signal observed at the k-th check of the job) and stop
the chunk if signalled, then process the file; a file error stops the
chunk (and, via `try_for_each`, the whole loop). -/
def runChunk (cancel : Nat → Bool) (E : Nat → ℚ) (total : Nat) :
    List FsFile → LoopState → LoopState
  | [], s => s
  | f :: rest, s =>
    if s.err then s
    else if cancel s.checks then { s with checks := s.checks + 1 }
    else runChunk cancel E total rest (processFile E total f { s with checks := s.checks + 1 })

/-- All chunks of the parallel loop, sequentially (src/parallel.rs:40-92);
an error short-circuits the remaining chunks. -/
def runChunks (cancel : Nat → Bool) (E : Nat → ℚ) (total : Nat) :
    List (List FsFile) → LoopState → LoopState
  | [], s => s
  | c :: cs, s =>
    if s.err then s
    else runChunks cancel E total cs (runChunk cancel E total c s)

/-- Outcome of one compress_files_parallel run (src/parallel.rs:13-108).
`panicked` records the `.expect("Failed to parallel")` panic on a chunk
error (src/parallel.rs:92); on success the writer is finalized, the
output bytes are `zipFinish entries`, the compressed size is read back
from the closed file, and one final `(1.0, stats)` snapshot is sent
(src/parallel.rs:94-105). -/
structure CompressResult where
  entries : List ZipEntry
  emittedLoop : List (ℚ × CompressionStats)
  panicked : Bool
  finalized : Bool
  emittedFinal : List (ℚ × CompressionStats)
  output : Option (List Nat)
  checks : Nat
  deriving DecidableEq

/-- Model of compress_files_parallel (src/parallel.rs:13-108).  `files`
is the input file set; `cancel` and `E` are the observed cancellation
signals and elapsed times; `zipFinish` is the container serialization of
the external zip crate.  Note there is no password parameter: the source
function has none. -/
def compress_files_parallel (files : List FsFile) (cancel : Nat → Bool) (E : Nat → ℚ)
    (zipFinish : List ZipEntry → List Nat) : CompressResult :=
  let meta := files.filter (·.metaOk)
  let total : Nat := (meta.map (·.content.length)).sum
  let s := runChunks cancel E total (chunksOf 4 meta) initLoopState
  if s.err then
    { entries := s.entries, emittedLoop := s.emitted, panicked := true, finalized := false,
      emittedFinal := [], output := none, checks := s.checks }
  else
    let out := zipFinish s.entries
    { entries := s.entries, emittedLoop := s.emitted, panicked := false, finalized := true,
      emittedFinal := [(1, ⟨total, out.length, s.est⟩)], output := some out, checks := s.checks }

/-- An opened zip archive: the list of its entries in stored order.  For
archives produced by this program it is `(compress_files_parallel ...).entries`. -/
structure ZipArchive where
  entries : List ZipEntry
  deriving DecidableEq

/-- The archive written by a compression run. -/
def archiveOf (r : CompressResult) : ZipArchive :=
  ⟨r.entries⟩

/-- Errors of the external zip crate that the source code observes. -/
inductive ZipErr
  | fileNotFound
  | passwordRequired
  | invalidPassword
  deriving DecidableEq

/-- Name lookup of the zip crate: the name index maps each name to the
most recently written entry carrying it (IndexMap insert semantics). -/
def findByName (ar : ZipArchive) (nm : String) : Option ZipEntry :=
  ar.entries.reverse.find? (fun e => e.name == nm)

/-- Model of ZipArchive::get_aes_verification_key_and_salt: Err for an
out-of-range index; otherwise `some` verification data exactly when the
entry is AES-encrypted. -/
def get_aes_verification_key_and_salt (ar : ZipArchive) (i : Nat) :
    Except ZipErr (Option String) :=
  match ar.entries.get? i with
  | none => .error .fileNotFound
  | some e => .ok e.options.aes_password

/-- Model of ZipArchive::by_index: no decryption is attempted, so an
encrypted entry yields a password-required error. -/
def by_index (ar : ZipArchive) (i : Nat) : Except ZipErr ZipEntry :=
  match ar.entries.get? i with
  | none => .error .fileNotFound
  | some e => if e.options.aes_password.isSome then .error .passwordRequired else .ok e

/-- Model of ZipArchive::by_index_decrypt: an unencrypted entry is
returned regardless of the supplied password; an encrypted one is
returned exactly when the password matches. -/
def by_index_decrypt (ar : ZipArchive) (i : Nat) (pwd : String) : Except ZipErr ZipEntry :=
  match ar.entries.get? i with
  | none => .error .fileNotFound
  | some e =>
    match e.options.aes_password with
    | none => .ok e
    | some p => if pwd = p then .ok e else .error .invalidPassword

/-- Model of ZipArchive::by_name: name lookup followed by the same
no-decryption access as `by_index`. -/
def by_name (ar : ZipArchive) (nm : String) : Except ZipErr ZipEntry :=
  match findByName ar nm with
  | none => .error .fileNotFound
  | some e => if e.options.aes_password.isSome then .error .passwordRequired else .ok e

/-- Model of ArchiveFile (src/models.rs:28-32), one row of the archive
listing; `is_directory` is the zip crate's name-based notion, `size` the
entry's uncompressed size. -/
structure ArchiveFile where
  name : String
  is_directory : Bool
  size : Nat
  deriving DecidableEq

/-- The listing row built for one entry (src/app.rs:206-210, 220-224). -/
def toArchiveFile (e : ZipEntry) : ArchiveFile :=
  { name := e.name, is_directory := e.name.endsWith "/", size := e.data.length }

/-- The listing loops of open_archive (src/app.rs:204-211, 218-225):
`for i in start..start+count`, accessing each entry through `acc` and
propagating the first error with `?`. -/
def listRange (acc : Nat → Except ZipErr ZipEntry) (start count : Nat) :
    Except ZipErr (List ArchiveFile) :=
  match count with
  | 0 => .ok []
  | c + 1 =>
    match acc start with
    | .error e => .error e
    | .ok entry =>
      match listRange acc (start + 1) c with
      | .error e => .error e
      | .ok rest => .ok (toArchiveFile entry :: rest)

/-- Outcome of ArchiveManager::open_archive.  `panicked` is the `.unwrap()`
on the AES probe (src/app.rs:188-192); `needsPassword` is the early
return that sets the "Archive is encrypted" status message and opens the
settings pane (src/app.rs:194-200); `errored` is an Err return;
`opened` sets `current_archive` to the listed files. -/
inductive OpenArchiveResult
  | panicked (e : ZipErr)
  | errored (e : ZipErr)
  | needsPassword
  | opened (files : List ArchiveFile)
  deriving DecidableEq

/-- Model of ArchiveManager::open_archive (src/app.rs:184-230): probe
entry 0 for AES metadata (unwrap: panic on Err), signal needs-password
when the probe found metadata and no password is set, then list all
entries - with `by_index_decrypt` when a password is set, else with
`by_index`. -/
def open_archive (ar : ZipArchive) (password : Option String) : OpenArchiveResult :=
  match get_aes_verification_key_and_salt ar 0 with
  | .error e => .panicked e
  | .ok probe =>
    if probe.isNone = false ∧ password = none then .needsPassword
    else
      match password with
      | some pwd =>
        match listRange (fun i => by_index_decrypt ar i pwd) 0 ar.entries.length with
        | .error e => .errored e
        | .ok fs => .opened fs
      | none =>
        match listRange (fun i => by_index ar i) 0 ar.entries.length with
        | .error e => .errored e
        | .ok fs => .opened fs

/-- Outcome of the extraction thread spawned by ArchiveManager::open_file
(src/app.rs:146-179).  `noArchive` is the no-op when no archive is open;
`panicked` is an `.unwrap()` panic (in particular `by_name(..).unwrap()`
at src/app.rs:149-151); `completed` carries the bytes written to the
destination, whether the external open-with-default-handler side effect
ran, whether the extraction-progress slot was zeroed, and whether a read
error was swallowed by the `while let Ok(n)` loop. -/
inductive OpenFileResult
  | noArchive
  | panicked (e : ZipErr)
  | completed (written : List Nat) (openedExternal : Bool) (progressCleared : Bool)
      (readErrHit : Bool)
  deriving DecidableEq

/-- The extraction read loop (src/app.rs:159-172): repeated `read` calls
each yielding one block; `failAfter = some k` means the k-th read call
returns Err, which the `while let Ok(n)` pattern treats like end of
stream (the loop exits with no error reported).  Returns the bytes
written and whether a read error was hit. -/
def readChunks (failAfter : Option Nat) : List (List Nat) → Nat → List Nat × Bool
  | [], reads => if failAfter = some reads then ([], true) else ([], false)
  | c :: cs, reads =>
    if failAfter = some reads then ([], true)
    else
      let p := readChunks failAfter cs (reads + 1)
      (c ++ p.1, p.2)

/-- Model of the extraction thread of ArchiveManager::open_file
(src/app.rs:137-182): when an archive is open, look the entry up by name
(two `.unwrap()`s: panic on Err - in particular on an AES-encrypted
entry, since `by_name` does not decrypt), then stream it in 8192-byte
blocks to the destination file, and unconditionally after the loop run
`open_system_file` and clear the extraction-progress slot.  No password
is consulted anywhere. -/
def open_file (currentArchive : Option ZipArchive) (file_name : String)
    (failAfter : Option Nat) : OpenFileResult :=
  match currentArchive with
  | none => .noArchive
  | some ar =>
    match by_name ar file_name with
    | .error e => .panicked e
    | .ok entry =>
      let rd := readChunks failAfter (chunksOf 8192 entry.data) 0
      .completed rd.1 true true rd.2

/-- Outcome of ArchiveManager::compress_files (src/app.rs:76-136) up to
the thread spawn: `noFiles` is the empty-selection early return,
`panicked` the `self.password.0.clone().unwrap()` on a `None` password
(src/app.rs:107), `spawned p` the successful spawn, which passes `p` to
compress_files_parallel even though that function has no password
parameter. -/
inductive CompressFilesResult
  | noFiles
  | panicked
  | spawned (password : String)
  deriving DecidableEq

/-- Model of ArchiveManager::compress_files (src/app.rs:76-136), with the
file-save dialog assumed confirmed. -/
def compress_files (selected : List FsFile) (password : Option String) :
    CompressFilesResult :=
  if selected.isEmpty then .noFiles
  else
    match password with
    | none => .panicked
    | some p => .spawned p

/-! Helper lemmas. -/

/-- The throttling condition at src/parallel.rs:77 is satisfied by every
fraction: the distance from the last whole-percent boundary is always
below one percent. -/
lemma throttle_always (p : ℚ) : p - ((⌊p * 100⌋ : ℤ) : ℚ) / 100 < 1 / 100 := by
  have h := Int.lt_floor_add_one (p * 100)
  linarith

/-- The accumulator worker splits its input at index `i`. -/
lemma chunksOfAux_eq {α : Type} (n : Nat) :
    ∀ (l : List α) (i : Nat), chunksOfAux n l i = (l.take i, chunksOf n (l.drop i)) := by
  intro l
  induction l with
  | nil => intro i; simp [chunksOfAux, chunksOf]
  | cons x xs ih =>
    intro i
    cases i with
    | zero => rfl
    | succ j =>
      rw [chunksOfAux]
      rw [ih j]
      rfl

/-- One-step unfolding of `chunksOf` on a nonempty list. -/
lemma chunksOf_cons {α : Type} (n : Nat) (x : α) (xs : List α) :
    chunksOf n (x :: xs) = (x :: xs.take (n - 1)) :: chunksOf n (xs.drop (n - 1)) := by
  show (chunksOfAux n (x :: xs) 0).2 = _
  rw [chunksOfAux]
  dsimp only
  rw [chunksOfAux_eq n xs (n - 1)]

/-- Chunking preserves the underlying list. -/
lemma chunksOf_flatten {α : Type} (n : Nat) : ∀ l : List α, (chunksOf n l).flatten = l := by
  have key : ∀ k (l : List α), l.length = k → (chunksOf n l).flatten = l := by
    intro k
    induction k using Nat.strong_induction_on with
    | _ k ih =>
      intro l hl
      cases l with
      | nil => simp [chunksOf, chunksOfAux]
      | cons x xs =>
        rw [chunksOf_cons, List.flatten_cons]
        rw [ih (xs.drop (n - 1)).length (by subst hl; simp; omega) (xs.drop (n - 1)) rfl]
        simp [List.take_append_drop]
  exact fun l => key l.length l rfl

/-- Every chunk produced by `chunksOf` is nonempty. -/
lemma chunksOf_ne_nil {α : Type} (n : Nat) :
    ∀ l : List α, ∀ c ∈ chunksOf n l, c ≠ [] := by
  have key : ∀ k (l : List α), l.length = k → ∀ c ∈ chunksOf n l, c ≠ [] := by
    intro k
    induction k using Nat.strong_induction_on with
    | _ k ih =>
      intro l hl
      cases l with
      | nil => simp [chunksOf, chunksOfAux]
      | cons x xs =>
        rw [chunksOf_cons]
        intro c hc
        rcases List.mem_cons.mp hc with h | h
        · subst h; simp
        · exact ih (xs.drop (n - 1)).length (by subst hl; simp; omega) (xs.drop (n - 1)) rfl c h
  exact fun l => key l.length l rfl

/-- Division of rationals by a fixed nonnegative denominator is monotone
(with Lean's 0-valued division by zero). -/
lemma qdiv_le_qdiv {a b t : ℚ} (h : a ≤ b) (ht : 0 ≤ t) : a / t ≤ b / t := by
  rcases eq_or_lt_of_le ht with h0 | h0
  · rw [← h0, div_zero, div_zero]
  · exact (div_le_div_iff_of_pos_right h0).mpr h

/-- A nonnegative rational divided by something at least as large is at
most 1 (also in the degenerate 0/0 case). -/
lemma qdiv_le_one {a t : ℚ} (ha : 0 ≤ a) (h : a ≤ t) : a / t ≤ 1 := by
  rcases eq_or_lt_of_le (le_trans ha h) with h0 | h0
  · rw [← h0, div_zero]; norm_num
  · exact (div_le_one h0).mpr h

/-- Total byte size of a list of files, as summed by the metadata passes
(src/parallel.rs:20-23, 31-37). -/
def sizeSum (l : List FsFile) : Nat := (l.map (·.content.length)).sum

/-- Processing one file either keeps the entry list or appends the
entry built by `mkZipEntry`. -/
lemma processFile_mem_entries {E : Nat → ℚ} {total : Nat} {f : FsFile} {s : LoopState}
    {e : ZipEntry} (he : e ∈ (processFile E total f s).entries) :
    e ∈ s.entries ∨ e = mkZipEntry f := by
  unfold processFile at he
  split at he
  · exact Or.inl he
  · dsimp only at he
    split at he <;> simpa using he

/-- Every entry written by a chunk run carries the fixed options of
src/parallel.rs:59-62. -/
lemma runChunk_options {cancel : Nat → Bool} {E : Nat → ℚ} {total : Nat} :
    ∀ (c : List FsFile) (s : LoopState),
    (∀ e ∈ s.entries, e.options = compressionOptions) →
    ∀ e ∈ (runChunk cancel E total c s).entries, e.options = compressionOptions := by
  intro c
  induction c with
  | nil => intro s h; simpa [runChunk] using h
  | cons f rest ih =>
    intro s h
    rw [runChunk]
    split
    · exact h
    · split
      · simpa using h
      · apply ih
        intro e he
        rcases processFile_mem_entries he with h1 | h1
        · exact h e (by simpa using h1)
        · subst h1; rfl

/-- Every entry written by the whole loop carries the fixed options. -/
lemma runChunks_options {cancel : Nat → Bool} {E : Nat → ℚ} {total : Nat} :
    ∀ (cs : List (List FsFile)) (s : LoopState),
    (∀ e ∈ s.entries, e.options = compressionOptions) →
    ∀ e ∈ (runChunks cancel E total cs s).entries, e.options = compressionOptions := by
  intro cs
  induction cs with
  | nil => intro s h; simpa [runChunks] using h
  | cons c cs ih =>
    intro s h
    rw [runChunks]
    split
    · exact h
    · exact ih _ (runChunk_options c s h)

/-- A nonempty chunk whose first cancellation check is signalled does
nothing but consume that one check (src/parallel.rs:44-47). -/
lemma runChunk_cancelled {E : Nat → ℚ} {total : Nat} (c : List FsFile) (s : LoopState)
    (hc : c ≠ []) (herr : s.err = false) :
    runChunk (fun _ => true) E total c s = { s with checks := s.checks + 1 } := by
  cases c with
  | nil => exact absurd rfl hc
  | cons f rest =>
    rw [runChunk]
    rw [if_neg (by simp [herr]), if_pos rfl]

/-- With the cancellation signal constantly on, the loop over any list of
nonempty chunks consumes one check per chunk and changes nothing else. -/
lemma runChunks_cancelled {E : Nat → ℚ} {total : Nat} :
    ∀ (cs : List (List FsFile)) (s : LoopState), (∀ c ∈ cs, c ≠ []) → s.err = false →
    runChunks (fun _ => true) E total cs s = { s with checks := s.checks + cs.length } := by
  intro cs
  induction cs with
  | nil => intro s _ _; simp [runChunks]
  | cons c cs ih =>
    intro s hne herr
    rw [runChunks]
    rw [if_neg (by simp [herr])]
    rw [runChunk_cancelled c s (hne c (by simp)) herr]
    rw [ih _ (fun d hd => hne d (by simp [hd])) (by simpa using herr)]
    have : s.checks + 1 + cs.length = s.checks + (cs.length + 1) := by omega
    simp [this]

/-- On a readable file, processing appends exactly one entry, adds the
file's size to the shared counter, and - whenever the job's total size
is nonzero - emits exactly one snapshot (the whole-percent throttling
condition is always satisfied then); with total size 0 the fraction is
NaN in the source, the throttling comparison is false, and nothing is
emitted. -/
lemma processFile_ok {E : Nat → ℚ} {total : Nat} {f : FsFile} (s : LoopState)
    (hf : f.readOk = true) :
    (processFile E total f s).err = s.err ∧
    (processFile E total f s).entries = s.entries ++ [mkZipEntry f] ∧
    (processFile E total f s).emitted.length
      = s.emitted.length + (if total = 0 then 0 else 1) ∧
    (processFile E total f s).processed = s.processed + f.content.length ∧
    (processFile E total f s).checks = s.checks := by
  unfold processFile
  rw [if_neg (by simp [hf])]
  dsimp only
  by_cases h0 : total = 0
  · rw [if_neg (by simp [h0])]
    simp [h0]
  · rw [if_pos ⟨h0, throttle_always _⟩]
    simp [h0]

/-- Characterization of a chunk run with no cancellation and no read
errors: all files are appended in order, and each emits one snapshot
when the job's total size is nonzero (none when it is zero). -/
lemma runChunk_nocancel {E : Nat → ℚ} {total : Nat} :
    ∀ (c : List FsFile) (s : LoopState), (∀ f ∈ c, f.readOk = true) → s.err = false →
    (runChunk (fun _ => false) E total c s).err = false ∧
    (runChunk (fun _ => false) E total c s).entries = s.entries ++ c.map mkZipEntry ∧
    (runChunk (fun _ => false) E total c s).emitted.length
      = s.emitted.length + (if total = 0 then 0 else c.length) := by
  intro c
  induction c with
  | nil => intro s _ herr; simp [runChunk, herr]
  | cons f rest ih =>
    intro s hread herr
    rw [runChunk]
    rw [if_neg (by simp [herr]), if_neg (by simp)]
    have hf : f.readOk = true := hread f (by simp)
    obtain ⟨e1, e2, e3, _, _⟩ := @processFile_ok E total f
      { s with checks := s.checks + 1 } hf
    obtain ⟨h1, h2, h3⟩ := ih (processFile E total f { s with checks := s.checks + 1 })
      (fun g hg => hread g (by simp [hg])) (by simpa [herr] using e1)
    refine ⟨h1, ?_, ?_⟩
    · rw [h2, e2]; simp
    · rw [h3, e3]
      by_cases h0 : total = 0
      · simp [h0]
      · simp [h0]
        omega

/-- Characterization of the whole loop with no cancellation and no read
errors, in terms of the concatenation of the chunks. -/
lemma runChunks_nocancel {E : Nat → ℚ} {total : Nat} :
    ∀ (cs : List (List FsFile)) (s : LoopState),
    (∀ f ∈ cs.flatten, f.readOk = true) → s.err = false →
    (runChunks (fun _ => false) E total cs s).err = false ∧
    (runChunks (fun _ => false) E total cs s).entries
      = s.entries ++ cs.flatten.map mkZipEntry ∧
    (runChunks (fun _ => false) E total cs s).emitted.length
      = s.emitted.length + (if total = 0 then 0 else cs.flatten.length) := by
  intro cs
  induction cs with
  | nil => intro s _ herr; simp [runChunks, herr]
  | cons c cs ih =>
    intro s hread herr
    rw [runChunks]
    rw [if_neg (by simp [herr])]
    obtain ⟨e1, e2, e3⟩ := runChunk_nocancel c s
      (fun g hg => hread g (by simp [hg])) herr
    obtain ⟨h1, h2, h3⟩ := ih (runChunk (fun _ => false) E total c s)
      (fun g hg => hread g (by simp [List.mem_flatten] at hg ⊢; tauto)) e1
    refine ⟨h1, ?_, ?_⟩
    · rw [h2, e2]; simp
    · rw [h3, e3]
      by_cases h0 : total = 0
      · simp [h0]
      · simp [h0]
        omega

/-- Invariant of the snapshot list: the i-th snapshot ever sent carries
`estimated_time = elapsed-at-emission-i / fraction` (0 for fraction 0),
exactly the update of src/parallel.rs:79-84. -/
def estInv (E : Nat → ℚ) (em : List (ℚ × CompressionStats)) : Prop :=
  ∀ i fr st, em[i]? = some (fr, st) →
    st.estimated_time = if 0 < fr then E i / fr else 0

lemma processFile_estInv {E : Nat → ℚ} {total : Nat} {f : FsFile} {s : LoopState}
    (h : estInv E s.emitted) : estInv E (processFile E total f s).emitted := by
  unfold processFile
  split
  · exact h
  · dsimp only
    split
    · intro i fr st hget
      dsimp only at hget
      rcases lt_trichotomy i s.emitted.length with hi | hi | hi
      · rw [List.getElem?_append_left hi] at hget
        exact h i fr st hget
      · subst hi
        rw [List.getElem?_concat_length] at hget
        obtain ⟨h1, h2⟩ := Prod.mk.injEq .. ▸ Option.some.inj hget
        subst h1
        rw [← h2]
      · rw [List.getElem?_eq_none (by simp; omega)] at hget
        exact absurd hget (by simp)
    · exact h

lemma runChunk_estInv {cancel : Nat → Bool} {E : Nat → ℚ} {total : Nat} :
    ∀ (c : List FsFile) (s : LoopState), estInv E s.emitted →
    estInv E (runChunk cancel E total c s).emitted := by
  intro c
  induction c with
  | nil => intro s h; simpa [runChunk] using h
  | cons f rest ih =>
    intro s h
    rw [runChunk]
    split
    · exact h
    · split
      · simpa using h
      · exact ih _ (processFile_estInv (by simpa using h))

lemma runChunks_estInv {cancel : Nat → Bool} {E : Nat → ℚ} {total : Nat} :
    ∀ (cs : List (List FsFile)) (s : LoopState), estInv E s.emitted →
    estInv E (runChunks cancel E total cs s).emitted := by
  intro cs
  induction cs with
  | nil => intro s h; simpa [runChunks] using h
  | cons c cs ih =>
    intro s h
    rw [runChunks]
    split
    · exact h
    · exact ih _ (runChunk_estInv c s h)

/-- Invariant of the snapshot list: emitted fractions are non-decreasing
and all bounded by the current processed/total ratio. -/
def monoInv (total : Nat) (s : LoopState) : Prop :=
  List.Chain' (· ≤ ·) (s.emitted.map Prod.fst) ∧
  ∀ x ∈ s.emitted.map Prod.fst, x ≤ (s.processed : ℚ) / (total : ℚ)

lemma processFile_monoInv {E : Nat → ℚ} {total : Nat} {f : FsFile} {s : LoopState}
    (h : monoInv total s) : monoInv total (processFile E total f s) := by
  obtain ⟨hch, hbd⟩ := h
  have hmono : (s.processed : ℚ) / (total : ℚ)
      ≤ ((s.processed + f.content.length : Nat) : ℚ) / (total : ℚ) :=
    qdiv_le_qdiv (by exact_mod_cast Nat.le_add_right ..) (Nat.cast_nonneg _)
  unfold processFile
  split
  · exact ⟨hch, hbd⟩
  · dsimp only
    split
    · constructor
      · rw [List.map_append]
        rw [List.chain'_append]
        refine ⟨hch, by simp, ?_⟩
        intro x hx y hy
        simp only [List.map_cons, List.map_nil, List.head?_cons, Option.mem_def,
          Option.some.injEq] at hy
        subst hy
        exact le_trans (hbd x (List.mem_of_mem_getLast? hx)) hmono
      · intro x hx
        dsimp only at hx ⊢
        rw [List.map_append] at hx
        rcases List.mem_append.mp hx with h1 | h1
        · exact le_trans (hbd x h1) (by exact_mod_cast hmono)
        · simp only [List.map_cons, List.map_nil, List.mem_singleton] at h1
          subst h1
          exact le_of_eq (by push_cast; ring)
    · refine ⟨hch, ?_⟩
      intro x hx
      exact le_trans (hbd x hx) (by exact_mod_cast hmono)

lemma runChunk_monoInv {cancel : Nat → Bool} {E : Nat → ℚ} {total : Nat} :
    ∀ (c : List FsFile) (s : LoopState), monoInv total s →
    monoInv total (runChunk cancel E total c s) := by
  intro c
  induction c with
  | nil => intro s h; simpa [runChunk] using h
  | cons f rest ih =>
    intro s h
    rw [runChunk]
    split
    · exact h
    · split
      · exact h
      · exact ih _ (processFile_monoInv h)

lemma runChunks_monoInv {cancel : Nat → Bool} {E : Nat → ℚ} {total : Nat} :
    ∀ (cs : List (List FsFile)) (s : LoopState), monoInv total s →
    monoInv total (runChunks cancel E total cs s) := by
  intro cs
  induction cs with
  | nil => intro s h; simpa [runChunks] using h
  | cons c cs ih =>
    intro s h
    rw [runChunks]
    split
    · exact h
    · exact ih _ (runChunk_monoInv c s h)

/-- The processed-bytes counter never exceeds the sizes of the files
handed to a chunk. -/
lemma processFile_processed_le {E : Nat → ℚ} {total : Nat} {f : FsFile} (s : LoopState) :
    (processFile E total f s).processed ≤ s.processed + f.content.length := by
  unfold processFile
  split
  · simp
  · dsimp only
    split <;> simp

lemma runChunk_processed_le {cancel : Nat → Bool} {E : Nat → ℚ} {total : Nat} :
    ∀ (c : List FsFile) (s : LoopState),
    (runChunk cancel E total c s).processed ≤ s.processed + sizeSum c := by
  intro c
  induction c with
  | nil => intro s; simp [runChunk]
  | cons f rest ih =>
    intro s
    rw [runChunk]
    split
    · simp
    · split
      · simp
      · calc (runChunk cancel E total rest _).processed
            ≤ (processFile E total f { s with checks := s.checks + 1 }).processed
              + sizeSum rest := ih _
          _ ≤ s.processed + f.content.length + sizeSum rest := by
              have := @processFile_processed_le E total f
                { s with checks := s.checks + 1 }
              simpa using Nat.add_le_add_right this (sizeSum rest)
          _ = s.processed + sizeSum (f :: rest) := by simp [sizeSum]; omega

lemma runChunks_processed_le {cancel : Nat → Bool} {E : Nat → ℚ} {total : Nat} :
    ∀ (cs : List (List FsFile)) (s : LoopState),
    (runChunks cancel E total cs s).processed ≤ s.processed + sizeSum cs.flatten := by
  intro cs
  induction cs with
  | nil => intro s; simp [runChunks]
  | cons c cs ih =>
    intro s
    rw [runChunks]
    split
    · simp
    · calc (runChunks cancel E total cs _).processed
          ≤ (runChunk cancel E total c s).processed + sizeSum cs.flatten := ih _
        _ ≤ s.processed + sizeSum c + sizeSum cs.flatten :=
            Nat.add_le_add_right (runChunk_processed_le c s) _
        _ = s.processed + sizeSum (c :: cs).flatten := by
            simp [sizeSum, List.flatten_cons]; omega

/-- Accessing an unencrypted in-range entry with `by_index` succeeds. -/
lemma by_index_ok {ar : ZipArchive} {i : Nat} {e : ZipEntry}
    (hget : ar.entries[i]? = some e) (hplain : e.options.aes_password = none) :
    by_index ar i = .ok e := by
  unfold by_index
  rw [List.get?_eq_getElem?, hget]
  simp [hplain]

/-- Listing a fully unencrypted archive with `by_index` succeeds and
returns the rows for the listed index range. -/
lemma listRange_by_index (ar : ZipArchive)
    (hplain : ∀ e ∈ ar.entries, e.options.aes_password = none) :
    ∀ (count start : Nat), start + count ≤ ar.entries.length →
    listRange (fun i => by_index ar i) start count =
      .ok (((ar.entries.drop start).take count).map toArchiveFile) := by
  intro count
  induction count with
  | zero => intro start _; simp [listRange]
  | succ c ih =>
    intro start h
    have hlt : start < ar.entries.length := by omega
    have hget : ar.entries[start]? = some ar.entries[start] := List.getElem?_eq_getElem hlt
    rw [listRange]
    rw [by_index_ok hget (hplain _ (ar.entries.getElem_mem hlt))]
    rw [ih (start + 1) (by omega)]
    rw [List.drop_eq_getElem_cons hlt, List.take_succ_cons, List.map_cons]

/-- Opening a nonempty, fully unencrypted archive with no password lists
every entry (src/app.rs:184-230, plain branch). -/
lemma open_archive_plain (ar : ZipArchive) (hne : ar.entries ≠ [])
    (hplain : ∀ e ∈ ar.entries, e.options.aes_password = none) :
    open_archive ar none = .opened (ar.entries.map toArchiveFile) := by
  obtain ⟨e0, rest, h0⟩ := List.exists_cons_of_ne_nil hne
  unfold open_archive get_aes_verification_key_and_salt
  have hget : ar.entries.get? 0 = some e0 := by rw [h0]; rfl
  rw [hget]
  dsimp only
  rw [if_neg (by simp [hplain e0 (by rw [h0]; simp)])]
  rw [listRange_by_index ar hplain ar.entries.length 0 (by omega)]
  rw [List.drop_zero, List.take_length]

/-- In a list of entries with pairwise distinct names, reverse-find by
name returns exactly the member carrying that name. -/
lemma find_by_name_unique {l : List ZipEntry} {e : ZipEntry}
    (hnd : (l.map (·.name)).Nodup) (he : e ∈ l) :
    l.reverse.find? (fun x => x.name == e.name) = some e := by
  rcases hfind : l.reverse.find? (fun x => x.name == e.name) with _ | e'
  · rw [List.find?_eq_none] at hfind
    exact absurd (by simp) (hfind e (List.mem_reverse.mpr he))
  · have hp := List.find?_some hfind
    have hmem := List.mem_reverse.mp (List.mem_of_find?_eq_some hfind)
    have heq : e'.name = e.name := by simpa using hp
    rw [hfind]
    exact congrArg some (List.inj_on_of_nodup_map hnd hmem he heq)

/-- With no injected read failure, the read loop copies the entire
stream and reports no error. -/
lemma readChunks_none :
    ∀ (cs : List (List Nat)) (r : Nat), readChunks none cs r = (cs.flatten, false) := by
  intro cs
  induction cs with
  | nil => intro r; simp [readChunks]
  | cons c cs ih =>
    intro r
    rw [readChunks]
    rw [if_neg (by simp)]
    simp [ih, List.flatten_cons]

/-- Extracting an unencrypted entry that name lookup resolves writes
exactly the entry's bytes, then runs the external open side effect and
clears the progress slot. -/
lemma open_file_plain (ar : ZipArchive) (nm : String) {e : ZipEntry}
    (hfind : findByName ar nm = some e) (hplain : e.options.aes_password = none) :
    open_file (some ar) nm none = .completed e.data true true false := by
  have hbn : by_name ar nm = .ok e := by
    unfold by_name
    rw [hfind]
    simp [hplain]
  unfold open_file
  dsimp only
  rw [hbn]
  dsimp only
  rw [readChunks_none, chunksOf_flatten]

/-- Every entry of any compression run carries the fixed per-entry
options of src/parallel.rs:59-62. -/
lemma compress_entries_options (files : List FsFile) (cancel : Nat → Bool) (E : Nat → ℚ)
    (zf : List ZipEntry → List Nat) :
    ∀ e ∈ (compress_files_parallel files cancel E zf).entries,
      e.options = compressionOptions := by
  intro e he
  simp only [compress_files_parallel] at he
  split at he <;>
    exact runChunks_options _ initLoopState (by simp [initLoopState]) e he

/-- Full characterization of a run with no cancellation and no read
errors: no panic, finalized, one entry per metaOk file, one loop
snapshot per metaOk file when the total size is nonzero (no loop
snapshot at all when it is zero: the f32 fraction is NaN and the
throttling comparison is false), and a single final snapshot. -/
lemma compress_files_parallel_nocancel (files : List FsFile) (E : Nat → ℚ)
    (zf : List ZipEntry → List Nat) (hread : ∀ f ∈ files, f.readOk = true) :
    (compress_files_parallel files (fun _ => false) E zf).panicked = false ∧
    (compress_files_parallel files (fun _ => false) E zf).finalized = true ∧
    (compress_files_parallel files (fun _ => false) E zf).entries
      = (files.filter (·.metaOk)).map mkZipEntry ∧
    (compress_files_parallel files (fun _ => false) E zf).emittedLoop.length
      = (if ((files.filter (·.metaOk)).map (·.content.length)).sum = 0 then 0
         else (files.filter (·.metaOk)).length) ∧
    ∃ st, (compress_files_parallel files (fun _ => false) E zf).emittedFinal = [(1, st)] := by
  have hreadm : ∀ f ∈ (chunksOf 4 (files.filter (·.metaOk))).flatten, f.readOk = true := by
    rw [chunksOf_flatten]
    intro f hf
    exact hread f (List.mem_of_mem_filter hf)
  obtain ⟨h1, h2, h3⟩ :=
    @runChunks_nocancel E ((files.filter (·.metaOk)).map (·.content.length)).sum
      (chunksOf 4 (files.filter (·.metaOk))) initLoopState hreadm rfl
  simp only [compress_files_parallel]
  rw [if_neg (by simp [h1])]
  refine ⟨rfl, rfl, ?_, ?_, ⟨_, rfl⟩⟩
  · rw [h2]
    simp [initLoopState, chunksOf_flatten]
  · rw [h3]
    simp [initLoopState, chunksOf_flatten]

/-! Claims.  Concrete runs are settled by `decide`; the rational
arithmetic primitives are unsealed so that their evaluation can proceed
by unfolding (they are `@[irreducible]` by default). -/

unseal Rat.mul Rat.inv Rat.add Rat.sub

/-- C1: the claim says entries are AES-encrypted whenever a password is
supplied and plain Deflate only without one.  The code does the
opposite: compress_files_parallel has no password parameter at all and
writes every entry as plain Deflate with no encryption
(src/parallel.rs:59-62), while ArchiveManager::compress_files panics on
`self.password.0.clone().unwrap()` when no password is set
(src/app.rs:107).  This theorem evaluates the code at the failing
situation: every written entry is unencrypted Deflate regardless of any
password, and the no-password path panics before compressing. -/
theorem c1_entries_always_plain_deflate :
    (∀ (files : List FsFile) (cancel : Nat → Bool) (E : Nat → ℚ)
        (zf : List ZipEntry → List Nat) (e : ZipEntry),
      e ∈ (compress_files_parallel files cancel E zf).entries →
      e.options.aes_password = none ∧ e.options.compression_method = .Deflated) ∧
    (∀ (f : FsFile) (fs : List FsFile), compress_files (f :: fs) none = .panicked) := by
  constructor
  · intro files cancel E zf e he
    rw [compress_entries_options files cancel E zf e he]
    exact ⟨rfl, rfl⟩
  · intro f fs
    rfl

/-- C1 witness: a concrete job (one file "a") in which the single written
entry is unencrypted plain Deflate. -/
theorem c1_witness :
    (mkZipEntry ⟨["a"], [5], true, true⟩
      ∈ (compress_files_parallel [⟨["a"], [5], true, true⟩] (fun _ => false) (fun _ => 0)
          (fun _ => [])).entries) ∧
    ((mkZipEntry ⟨["a"], [5], true, true⟩).options.aes_password = none ∧
      (mkZipEntry ⟨["a"], [5], true, true⟩).options.compression_method = .Deflated) :=
  ⟨by decide,
    c1_entries_always_plain_deflate.1 [⟨["a"], [5], true, true⟩] (fun _ => false) (fun _ => 0)
      (fun _ => []) (mkZipEntry ⟨["a"], [5], true, true⟩) (by decide)⟩

/-- C3 counterexample: a job cancelled from the very start (the signal is
on at every check) still finalizes the archive writer and still emits
the final snapshot, contradicting the claim that a signalled worker
returns without the archive being finalized. -/
theorem c3_counterexample :
    (compress_files_parallel [⟨["a"], [0, 1, 2, 3, 4], true, true⟩] (fun _ => true)
        (fun _ => 0) (fun _ => [9, 9])).finalized = true ∧
    (compress_files_parallel [⟨["a"], [0, 1, 2, 3, 4], true, true⟩] (fun _ => true)
        (fun _ => 0) (fun _ => [9, 9])).emittedFinal ≠ [] := by
  decide

/-- C3 amended: the cancellation signal is consulted once per file
boundary (with the signal constantly on, exactly one check per chunk is
consumed before the chunk gives up); a signalled chunk stops without
writing any entry or snapshot, but compress_files_parallel still
finalizes the archive writer and still emits the final (1.0, stats)
snapshot (src/parallel.rs:94-105 runs unconditionally after the loop). -/
theorem c3_cancelled_chunks_stop_but_archive_finalizes (files : List FsFile) (E : Nat → ℚ)
    (zf : List ZipEntry → List Nat) :
    (compress_files_parallel files (fun _ => true) E zf).entries = [] ∧
    (compress_files_parallel files (fun _ => true) E zf).emittedLoop = [] ∧
    (compress_files_parallel files (fun _ => true) E zf).checks
      = (chunksOf 4 (files.filter (·.metaOk))).length ∧
    (compress_files_parallel files (fun _ => true) E zf).finalized = true ∧
    ∃ st, (compress_files_parallel files (fun _ => true) E zf).emittedFinal = [(1, st)] := by
  have hrc :=
    @runChunks_cancelled E ((files.filter (·.metaOk)).map (·.content.length)).sum
      (chunksOf 4 (files.filter (·.metaOk))) initLoopState
      (chunksOf_ne_nil 4 _) rfl
  simp only [compress_files_parallel]
  rw [hrc]
  exact ⟨rfl, rfl, by simp [initLoopState], rfl, _, rfl⟩

/-- C4 counterexample: requesting extraction of a protected entry (no
password is consulted by open_file at all) makes the extraction thread
panic on the `by_name(..).unwrap()`, instead of signalling a
needs-password condition. -/
theorem c4_counterexample :
    open_file (some ⟨[⟨"f", [1], { compressionOptions with aes_password := some "pw" }⟩]⟩)
        "f" none = .panicked .passwordRequired := by
  decide

/-- C4 amended: open_file performs no password gating: on a protected
entry the extraction thread panics at the by_name unwrap
(src/app.rs:149-151) before creating the destination file, so no bytes
are written but no NeedsPassword condition is signalled either.  The
NeedsPassword signal exists only at archive-open time: open_archive on
an archive whose entry 0 is AES-protected, with no password set, returns
without listing and asks for a password (src/app.rs:194-200). -/
theorem c4_no_gate_in_open_file_needs_password_in_open_archive :
    (∀ (ar : ZipArchive) (nm : String) (fa : Option Nat) (e : ZipEntry),
      findByName ar nm = some e → e.options.aes_password.isSome = true →
      open_file (some ar) nm fa = .panicked .passwordRequired) ∧
    (∀ (ar : ZipArchive) (e0 : ZipEntry),
      ar.entries[0]? = some e0 → e0.options.aes_password.isSome = true →
      open_archive ar none = .needsPassword) := by
  constructor
  · intro ar nm fa e hfind hsome
    have hbn : by_name ar nm = .error .passwordRequired := by
      unfold by_name
      rw [hfind]
      simp [hsome]
    unfold open_file
    dsimp only
    rw [hbn]
  · intro ar e0 hget hsome
    obtain ⟨p, hp⟩ := Option.isSome_iff_exists.mp hsome
    unfold open_archive get_aes_verification_key_and_salt
    rw [List.get?_eq_getElem?, hget]
    dsimp only
    rw [if_pos (by simp [hp])]

/-- C4 witness: a concrete protected entry for both parts of the amended
statement. -/
theorem c4_witness :
    (findByName ⟨[⟨"f", [1], { compressionOptions with aes_password := some "pw" }⟩]⟩ "f"
        = some ⟨"f", [1], { compressionOptions with aes_password := some "pw" }⟩ ∧
      open_file (some ⟨[⟨"f", [1], { compressionOptions with aes_password := some "pw" }⟩]⟩)
        "f" none = .panicked .passwordRequired) ∧
    ((⟨[⟨"f", [1], { compressionOptions with aes_password := some "pw" }⟩]⟩ :
        ZipArchive).entries[0]?
        = some ⟨"f", [1], { compressionOptions with aes_password := some "pw" }⟩ ∧
      open_archive ⟨[⟨"f", [1], { compressionOptions with aes_password := some "pw" }⟩]⟩ none
        = .needsPassword) :=
  ⟨⟨by decide,
      c4_no_gate_in_open_file_needs_password_in_open_archive.1
        ⟨[⟨"f", [1], { compressionOptions with aes_password := some "pw" }⟩]⟩ "f" none
        ⟨"f", [1], { compressionOptions with aes_password := some "pw" }⟩
        (by decide) (by decide)⟩,
    ⟨by decide,
      c4_no_gate_in_open_file_needs_password_in_open_archive.2
        ⟨[⟨"f", [1], { compressionOptions with aes_password := some "pw" }⟩]⟩
        ⟨"f", [1], { compressionOptions with aes_password := some "pw" }⟩
        (by decide) (by decide)⟩⟩

/-- C9: the claim says worker-loop I/O errors are never silently
swallowed and that success-only completion effects do not run on the
error path.  The code violates both: (a) in the extraction loop,
`while let Ok(n) = zip_file.read(..)` treats a read error like end of
stream (src/app.rs:162), after which `open_system_file` and the
progress-slot clearing still run as on success (src/app.rs:174-177) -
here a first-read failure on a 3-byte entry yields a completed result
with the external open invoked and the error invisible; (b) in the
compression loop, a file read error makes `try_for_each` return Err,
which hits `.expect("Failed to parallel")` (src/parallel.rs:92) and
panics the worker thread instead of propagating the Err to the job's
Result (so the `error!` logging in src/app.rs:113-122 is never
reached). -/
theorem c9_read_error_swallowed_and_expect_panics :
    open_file (some ⟨[⟨"f", [1, 2, 3], compressionOptions⟩]⟩) "f" (some 0)
      = .completed [] true true true ∧
    (compress_files_parallel [⟨["a"], [1], true, false⟩] (fun _ => false) (fun _ => 0)
        (fun _ => [])).panicked = true := by
  decide

/-- C10 counterexample: opening a readable zip archive with zero entries
panics: the AES classification probe `get_aes_verification_key_and_salt(0)`
returns Err for the out-of-range index 0 and open_archive unwraps it
(src/app.rs:188-192). -/
theorem c10_counterexample :
    open_archive ⟨[]⟩ none = .panicked .fileNotFound := by
  decide

/-- C10 amended: for archives with at least one entry the call never
panics (it returns needs-password, a listing, or an error); on a
zero-entry archive the index-0 probe unwrap aborts the thread. -/
theorem c10_open_archive_no_panic_when_nonempty (ar : ZipArchive) (password : Option String)
    (e : ZipErr) (hne : ar.entries ≠ []) : open_archive ar password ≠ .panicked e := by
  intro hcon
  obtain ⟨e0, rest, h0⟩ := List.exists_cons_of_ne_nil hne
  have hget : ar.entries.get? 0 = some e0 := by rw [h0]; rfl
  unfold open_archive get_aes_verification_key_and_salt at hcon
  rw [hget] at hcon
  dsimp only at hcon
  split at hcon
  · exact OpenArchiveResult.noConfusion hcon
  · cases password with
    | none =>
      dsimp only at hcon
      split at hcon <;> exact OpenArchiveResult.noConfusion hcon
    | some pwd =>
      dsimp only at hcon
      split at hcon <;> exact OpenArchiveResult.noConfusion hcon

/-- C10 witness: a concrete one-entry archive on which open_archive does
not panic. -/
theorem c10_witness :
    ((⟨[⟨"f", [1], compressionOptions⟩]⟩ : ZipArchive).entries ≠ []) ∧
    open_archive ⟨[⟨"f", [1], compressionOptions⟩]⟩ none ≠ .panicked .fileNotFound :=
  ⟨by decide, c10_open_archive_no_panic_when_nonempty _ _ _ (by decide)⟩

/-- C2 counterexample: two readable files with the same basename "f" but
different contents.  Extraction is by entry name (src/app.rs:149-151),
and both entries are named "f", so at most one of the two input files
can have its bytes reproduced: the round trip fails as stated for this
non-empty set of readable files. -/
theorem c2_counterexample :
    ¬ ∀ f ∈ ([⟨["d1", "f"], [0], true, true⟩, ⟨["d2", "f"], [1], true, true⟩] : List FsFile),
      open_file
          (some (archiveOf (compress_files_parallel
            [⟨["d1", "f"], [0], true, true⟩, ⟨["d2", "f"], [1], true, true⟩]
            (fun _ => false) (fun _ => 0) (fun _ => []))))
          (fileBasename f.path) none
        = .completed f.content true true false := by
  decide

/-- C2 amended: for every non-empty set of readable input files with
pairwise distinct basenames, compressing with compress_files_parallel
(which takes no password), then listing with open_archive and extracting
every entry with open_file, reproduces each input file's exact byte
content, and the listing reports each entry's original size. -/
theorem c2_round_trip_distinct_basenames (files : List FsFile) (E : Nat → ℚ)
    (zf : List ZipEntry → List Nat)
    (hne : files ≠ [])
    (hok : ∀ f ∈ files, f.metaOk = true ∧ f.readOk = true)
    (hnd : (files.map fun f => fileBasename f.path).Nodup) :
    open_archive (archiveOf (compress_files_parallel files (fun _ => false) E zf)) none
      = .opened (files.map fun f => toArchiveFile (mkZipEntry f)) ∧
    ∀ f ∈ files,
      (toArchiveFile (mkZipEntry f)).size = f.content.length ∧
      open_file (some (archiveOf (compress_files_parallel files (fun _ => false) E zf)))
        (fileBasename f.path) none = .completed f.content true true false := by
  have hmeta : files.filter (·.metaOk) = files :=
    List.filter_eq_self.mpr (fun f hf => by simp [(hok f hf).1])
  obtain ⟨hp, hfin, hent, hlen, st0, hfs⟩ :=
    compress_files_parallel_nocancel files E zf (fun f hf => (hok f hf).2)
  rw [hmeta] at hent
  have hplainar :
      ∀ e ∈ (archiveOf (compress_files_parallel files (fun _ => false) E zf)).entries,
        e.options.aes_password = none := by
    rw [show (archiveOf (compress_files_parallel files (fun _ => false) E zf)).entries
        = files.map mkZipEntry from hent]
    intro e he
    obtain ⟨f, _, rfl⟩ := List.mem_map.mp he
    rfl
  constructor
  · have h1 : (archiveOf (compress_files_parallel files (fun _ => false) E zf)).entries
        ≠ [] := by
      rw [show (archiveOf (compress_files_parallel files (fun _ => false) E zf)).entries
          = files.map mkZipEntry from hent]
      simpa using hne
    rw [open_archive_plain _ h1 hplainar]
    rw [show (archiveOf (compress_files_parallel files (fun _ => false) E zf)).entries
        = files.map mkZipEntry from hent]
    rw [List.map_map]
    rfl
  · intro f hf
    refine ⟨rfl, ?_⟩
    have hmem : mkZipEntry f
        ∈ (archiveOf (compress_files_parallel files (fun _ => false) E zf)).entries := by
      rw [show (archiveOf (compress_files_parallel files (fun _ => false) E zf)).entries
          = files.map mkZipEntry from hent]
      exact List.mem_map_of_mem _ hf
    have hnd2 :
        ((archiveOf (compress_files_parallel files (fun _ => false) E zf)).entries.map
          (fun e => e.name)).Nodup := by
      rw [show (archiveOf (compress_files_parallel files (fun _ => false) E zf)).entries
          = files.map mkZipEntry from hent]
      rw [List.map_map]
      exact hnd
    have hfind : findByName (archiveOf (compress_files_parallel files (fun _ => false) E zf))
        (fileBasename f.path) = some (mkZipEntry f) :=
      find_by_name_unique hnd2 hmem
    exact open_file_plain _ _ hfind rfl

/-- C2 witness: two readable files "x" and "y" with distinct basenames. -/
theorem c2_witness :
    (([⟨["a", "x"], [1], true, true⟩, ⟨["b", "y"], [2, 3], true, true⟩] : List FsFile) ≠ [] ∧
      (∀ f ∈ ([⟨["a", "x"], [1], true, true⟩, ⟨["b", "y"], [2, 3], true, true⟩] : List FsFile),
        f.metaOk = true ∧ f.readOk = true) ∧
      (([⟨["a", "x"], [1], true, true⟩, ⟨["b", "y"], [2, 3], true, true⟩] : List FsFile).map
        fun f => fileBasename f.path).Nodup) ∧
    (open_archive
        (archiveOf (compress_files_parallel
          [⟨["a", "x"], [1], true, true⟩, ⟨["b", "y"], [2, 3], true, true⟩]
          (fun _ => false) (fun _ => 0) (fun _ => []))) none
      = .opened (([⟨["a", "x"], [1], true, true⟩, ⟨["b", "y"], [2, 3], true, true⟩] :
          List FsFile).map fun f => toArchiveFile (mkZipEntry f)) ∧
    ∀ f ∈ ([⟨["a", "x"], [1], true, true⟩, ⟨["b", "y"], [2, 3], true, true⟩] : List FsFile),
      (toArchiveFile (mkZipEntry f)).size = f.content.length ∧
      open_file
          (some (archiveOf (compress_files_parallel
            [⟨["a", "x"], [1], true, true⟩, ⟨["b", "y"], [2, 3], true, true⟩]
            (fun _ => false) (fun _ => 0) (fun _ => []))))
          (fileBasename f.path) none = .completed f.content true true false) :=
  ⟨⟨by decide, by decide, by decide⟩,
    c2_round_trip_distinct_basenames
      [⟨["a", "x"], [1], true, true⟩, ⟨["b", "y"], [2, 3], true, true⟩]
      (fun _ => 0) (fun _ => []) (by decide) (by decide) (by decide)⟩

set_option maxRecDepth 100000 in
/-- C5 counterexample: three readable files of sizes 1, 1 and 998 bytes.
The first two snapshots are emitted at fractions 1/1000 and 1/500, both
inside whole-percent bucket 0: the second emission crosses no new
whole-percent boundary, contradicting "emitted only when the fraction
crosses a new whole-percent boundary". -/
theorem c5_counterexample :
    ((compress_files_parallel
        [⟨["a"], [0], true, true⟩, ⟨["b"], [1], true, true⟩,
          ⟨["c"], List.replicate 998 2, true, true⟩]
        (fun _ => false) (fun _ => 0) (fun _ => [])).emittedLoop.map Prod.fst
      = [1 / 1000, 1 / 500, 1]) ∧
    ⌊(100 : ℚ) * (1 / 1000)⌋ = 0 ∧ ⌊(100 : ℚ) * (1 / 500)⌋ = 0 := by
  decide

/-- C5 amended: when the job's total size is nonzero, the throttling
condition of src/parallel.rs:77 is always satisfied, so a snapshot is
emitted after every successfully processed file plus one final snapshot
- (number of metaOk files) + 1 snapshots, which is not bounded by 100;
when the total size is zero (every readable file is empty), the f32
fraction is NaN, the throttling comparison is false, and the job emits
only the single final snapshot. -/
theorem c5_snapshot_after_every_file (files : List FsFile) (E : Nat → ℚ)
    (zf : List ZipEntry → List Nat) (hread : ∀ f ∈ files, f.readOk = true) :
    (((files.filter (·.metaOk)).map (·.content.length)).sum ≠ 0 →
      (compress_files_parallel files (fun _ => false) E zf).emittedLoop.length
        = (files.filter (·.metaOk)).length ∧
      ((compress_files_parallel files (fun _ => false) E zf).emittedLoop
        ++ (compress_files_parallel files (fun _ => false) E zf).emittedFinal).length
        = (files.filter (·.metaOk)).length + 1) ∧
    (((files.filter (·.metaOk)).map (·.content.length)).sum = 0 →
      (compress_files_parallel files (fun _ => false) E zf).emittedLoop = [] ∧
      ((compress_files_parallel files (fun _ => false) E zf).emittedLoop
        ++ (compress_files_parallel files (fun _ => false) E zf).emittedFinal).length
        = 1) := by
  obtain ⟨hp, hfin, hent, hlen, st0, hfs⟩ :=
    compress_files_parallel_nocancel files E zf hread
  constructor
  · intro h0
    rw [if_neg h0] at hlen
    refine ⟨hlen, ?_⟩
    rw [List.length_append, hlen, hfs]
    rfl
  · intro h0
    rw [if_pos h0] at hlen
    have hnil : (compress_files_parallel files (fun _ => false) E zf).emittedLoop = [] :=
      List.length_eq_zero.mp hlen
    refine ⟨hnil, ?_⟩
    rw [hnil, hfs]
    rfl

/-- C5 witness: a two-file job of total size 3 emits 2 + 1 snapshots; a
one-file job whose only file is empty (total size 0) emits only the
final snapshot. -/
theorem c5_witness :
    ((∀ f ∈ ([⟨["a"], [1], true, true⟩, ⟨["b"], [2, 2], true, true⟩] : List FsFile),
        f.readOk = true) ∧
      ((([⟨["a"], [1], true, true⟩, ⟨["b"], [2, 2], true, true⟩] : List FsFile).filter
          (·.metaOk)).map (·.content.length)).sum ≠ 0 ∧
      ((compress_files_parallel [⟨["a"], [1], true, true⟩, ⟨["b"], [2, 2], true, true⟩]
          (fun _ => false) (fun _ => 0) (fun _ => [])).emittedLoop.length
        = (([⟨["a"], [1], true, true⟩, ⟨["b"], [2, 2], true, true⟩] : List FsFile).filter
            (·.metaOk)).length ∧
      ((compress_files_parallel [⟨["a"], [1], true, true⟩, ⟨["b"], [2, 2], true, true⟩]
          (fun _ => false) (fun _ => 0) (fun _ => [])).emittedLoop
        ++ (compress_files_parallel [⟨["a"], [1], true, true⟩, ⟨["b"], [2, 2], true, true⟩]
          (fun _ => false) (fun _ => 0) (fun _ => [])).emittedFinal).length
        = (([⟨["a"], [1], true, true⟩, ⟨["b"], [2, 2], true, true⟩] : List FsFile).filter
            (·.metaOk)).length + 1)) ∧
    ((∀ f ∈ ([⟨["a"], [], true, true⟩] : List FsFile), f.readOk = true) ∧
      ((([⟨["a"], [], true, true⟩] : List FsFile).filter
          (·.metaOk)).map (·.content.length)).sum = 0 ∧
      ((compress_files_parallel [⟨["a"], [], true, true⟩]
          (fun _ => false) (fun _ => 0) (fun _ => [])).emittedLoop = [] ∧
      ((compress_files_parallel [⟨["a"], [], true, true⟩]
          (fun _ => false) (fun _ => 0) (fun _ => [])).emittedLoop
        ++ (compress_files_parallel [⟨["a"], [], true, true⟩]
          (fun _ => false) (fun _ => 0) (fun _ => [])).emittedFinal).length = 1)) :=
  ⟨⟨by decide, by decide,
      (c5_snapshot_after_every_file [⟨["a"], [1], true, true⟩, ⟨["b"], [2, 2], true, true⟩]
        (fun _ => 0) (fun _ => []) (by decide)).1 (by decide)⟩,
    ⟨by decide, by decide,
      (c5_snapshot_after_every_file [⟨["a"], [], true, true⟩]
        (fun _ => 0) (fun _ => []) (by decide)).2 (by decide)⟩⟩

/-- C6 counterexample: one 1-byte file with elapsed time 3 at the single
emission.  The emitted snapshot carries estimated_time = 3 (elapsed /
fraction at fraction 1), whereas the claimed formula
elapsed * (1 - fraction) / fraction gives 0. -/
theorem c6_counterexample :
    (compress_files_parallel [⟨["a"], [7], true, true⟩] (fun _ => false) (fun _ => 3)
        (fun _ => [])).emittedLoop = [(1, ⟨1, 0, 3⟩)] ∧
    (3 : ℚ) ≠ 3 * (1 - 1) / 1 := by
  decide

/-- C6 amended: every snapshot emitted from the worker loop carries
estimated_time = elapsed / fraction - the total estimated job time, not
the remaining time elapsed * (1 - fraction) / fraction - with 0 when the
fraction is not positive, where elapsed is the time observed at that
emission (src/parallel.rs:79-84). -/
theorem c6_estimated_time_is_elapsed_div_fraction (files : List FsFile) (cancel : Nat → Bool)
    (E : Nat → ℚ) (zf : List ZipEntry → List Nat) (i : Nat) (fr : ℚ) (st : CompressionStats)
    (h : (compress_files_parallel files cancel E zf).emittedLoop[i]? = some (fr, st)) :
    st.estimated_time = if 0 < fr then E i / fr else 0 := by
  have hinv :=
    @runChunks_estInv cancel E ((files.filter (·.metaOk)).map (·.content.length)).sum
      (chunksOf 4 (files.filter (·.metaOk))) initLoopState
      (by intro j fr' st' h0; simp [initLoopState] at h0)
  revert h
  simp only [compress_files_parallel]
  split
  · exact fun h => hinv i fr st h
  · exact fun h => hinv i fr st h

/-- C6 witness: the single emission of a one-file job with elapsed 3. -/
theorem c6_witness :
    ((compress_files_parallel [⟨["a"], [7], true, true⟩] (fun _ => false) (fun _ => 3)
        (fun _ => [])).emittedLoop[0]? = some (1, ⟨1, 0, 3⟩)) ∧
    ((⟨1, 0, 3⟩ : CompressionStats).estimated_time
      = if 0 < (1 : ℚ) then (fun _ => (3 : ℚ)) 0 / 1 else 0) :=
  ⟨by decide,
    c6_estimated_time_is_elapsed_div_fraction [⟨["a"], [7], true, true⟩] (fun _ => false)
      (fun _ => 3) (fun _ => []) 0 1 ⟨1, 0, 3⟩ (by decide)⟩

/-- C7: for every job that terminates without panicking, the sequence of
emitted fractions, in emission order (the emissions are serialized by
the processed-bytes mutex, which is held across the send), is
non-decreasing, and the final emitted fraction is exactly 1. -/
theorem c7_fractions_monotone_final_one (files : List FsFile) (cancel : Nat → Bool)
    (E : Nat → ℚ) (zf : List ZipEntry → List Nat)
    (h : (compress_files_parallel files cancel E zf).panicked = false) :
    List.Chain' (· ≤ ·)
      (((compress_files_parallel files cancel E zf).emittedLoop
        ++ (compress_files_parallel files cancel E zf).emittedFinal).map Prod.fst) ∧
    (((compress_files_parallel files cancel E zf).emittedLoop
        ++ (compress_files_parallel files cancel E zf).emittedFinal).map Prod.fst).getLast?
      = some 1 := by
  have hinv :=
    @runChunks_monoInv cancel E ((files.filter (·.metaOk)).map (·.content.length)).sum
      (chunksOf 4 (files.filter (·.metaOk))) initLoopState
      ⟨by simp [initLoopState], by simp [initLoopState]⟩
  have hple :=
    @runChunks_processed_le cancel E ((files.filter (·.metaOk)).map (·.content.length)).sum
      (chunksOf 4 (files.filter (·.metaOk))) initLoopState
  rw [chunksOf_flatten] at hple
  have hs : (runChunks cancel E ((files.filter (·.metaOk)).map (·.content.length)).sum
      (chunksOf 4 (files.filter (·.metaOk))) initLoopState).processed
      ≤ ((files.filter (·.metaOk)).map (·.content.length)).sum := by
    have h0 : initLoopState.processed = 0 := rfl
    have h1 : sizeSum (files.filter (·.metaOk))
        = ((files.filter (·.metaOk)).map (·.content.length)).sum := rfl
    omega
  have hbound1 :
      ((runChunks cancel E ((files.filter (·.metaOk)).map (·.content.length)).sum
          (chunksOf 4 (files.filter (·.metaOk))) initLoopState).processed : ℚ)
        / (((((files.filter (·.metaOk)).map (·.content.length)).sum : Nat)) : ℚ) ≤ 1 :=
    qdiv_le_one (Nat.cast_nonneg _) (by exact_mod_cast hs)
  revert h
  simp only [compress_files_parallel]
  split
  · intro h
    simp at h
  · intro _
    constructor
    · rw [List.map_append, List.chain'_append]
      refine ⟨hinv.1, by simp, ?_⟩
      intro x hx y hy
      simp only [List.map_cons, List.map_nil, List.head?_cons, Option.mem_def,
        Option.some.injEq] at hy
      subst hy
      exact le_trans (hinv.2 x (List.mem_of_mem_getLast? hx)) hbound1
    · rw [List.map_append]
      simp only [List.map_cons, List.map_nil]
      rw [List.getLast?_concat]

/-- C7 witness: a concrete successful one-file job. -/
theorem c7_witness :
    ((compress_files_parallel [⟨["a"], [7], true, true⟩] (fun _ => false) (fun _ => 0)
        (fun _ => [])).panicked = false) ∧
    (List.Chain' (· ≤ ·)
      (((compress_files_parallel [⟨["a"], [7], true, true⟩] (fun _ => false) (fun _ => 0)
          (fun _ => [])).emittedLoop
        ++ (compress_files_parallel [⟨["a"], [7], true, true⟩] (fun _ => false) (fun _ => 0)
          (fun _ => [])).emittedFinal).map Prod.fst) ∧
    (((compress_files_parallel [⟨["a"], [7], true, true⟩] (fun _ => false) (fun _ => 0)
          (fun _ => [])).emittedLoop
        ++ (compress_files_parallel [⟨["a"], [7], true, true⟩] (fun _ => false) (fun _ => 0)
          (fun _ => [])).emittedFinal).map Prod.fst).getLast? = some 1) :=
  ⟨by decide,
    c7_fractions_monotone_final_one [⟨["a"], [7], true, true⟩] (fun _ => false) (fun _ => 0)
      (fun _ => []) (by decide)⟩

/-- C8: every job that terminates without panicking finalizes the
archive writer after all chunks complete, produces the output file, and
emits exactly one final (1.0, stats) snapshot whose compressed_size is
read back from the finalized output and equals its byte length
(src/parallel.rs:94-105). -/
theorem c8_finalized_snapshot_matches_output_length (files : List FsFile)
    (cancel : Nat → Bool) (E : Nat → ℚ) (zf : List ZipEntry → List Nat)
    (h : (compress_files_parallel files cancel E zf).panicked = false) :
    (compress_files_parallel files cancel E zf).finalized = true ∧
    ∃ out st, (compress_files_parallel files cancel E zf).output = some out ∧
      (compress_files_parallel files cancel E zf).emittedFinal = [(1, st)] ∧
      st.compressed_size = out.length := by
  simp only [compress_files_parallel] at h ⊢
  split at h
  · simp at h
  · rename_i herr
    rw [if_neg herr]
    exact ⟨rfl, _, _, rfl, rfl, rfl⟩

/-- C8 witness: a concrete one-file job with a two-byte serialized
container. -/
theorem c8_witness :
    ((compress_files_parallel [⟨["a"], [7], true, true⟩] (fun _ => false) (fun _ => 0)
        (fun _ => [7, 7])).panicked = false) ∧
    ((compress_files_parallel [⟨["a"], [7], true, true⟩] (fun _ => false) (fun _ => 0)
        (fun _ => [7, 7])).finalized = true ∧
    ∃ out st, (compress_files_parallel [⟨["a"], [7], true, true⟩] (fun _ => false) (fun _ => 0)
        (fun _ => [7, 7])).output = some out ∧
      (compress_files_parallel [⟨["a"], [7], true, true⟩] (fun _ => false) (fun _ => 0)
        (fun _ => [7, 7])).emittedFinal = [(1, st)] ∧
      st.compressed_size = out.length) :=
  ⟨by decide,
    c8_finalized_snapshot_matches_output_length [⟨["a"], [7], true, true⟩] (fun _ => false)
      (fun _ => 0) (fun _ => [7, 7]) (by decide)⟩

end ZipApp
